import Mathlib

/-!
Verification of the qrexec proxy pipeline (src/qrexec-proxy.py and src/plugins/)
against its natural-language specification.

Modelling conventions:
* Byte streams are lists of bytes (`List Nat`).  A reader is the full list of
  bytes it will ever produce before EOF.
* Non-blocking reads may return fewer bytes than requested.  The number of
  bytes made available by the operating system on each read call is injected
  through an oracle (`ks : List Nat`, one entry consumed per read call, clamped
  to the legal range).  Theorems quantify over every oracle, i.e. over every
  schedule of partial reads.
* Fallible code returns `Except`.
* Machine integers are `Int`/`Nat`; the Python sources use unbounded ints.
-/

/-- `READ_BUF_SIZE` from src/plugins/__init__.py: standard read buffer size. -/
def READ_BUF_SIZE : Nat := 1024 * 1024

/-- Number of bytes a single call `reader.read(size)` of src/plugins/__init__.py's
`read_noblock` returns, given the oracle value `k` (how many bytes the kernel
makes available).  A non-blocking read on a non-empty stream returns between 1
and `size` bytes (`size = -1` reads as much as possible); at EOF (empty stream)
or for `size = 0` it returns the empty buffer.  The busy-wait on `None` /
`BlockingIOError` of `read_noblock` is invisible in the data plane. -/
def read_amount (stream : List Nat) (size : Int) (k : Nat) : Nat :=
  if stream.isEmpty then 0
  else min (max k 1) (if size < 0 then stream.length else min size.toNat stream.length)

/-- `read_noblock` of src/plugins/__init__.py as a pure function: returns the
bytes read and the remainder of the stream. -/
def read_noblock (stream : List Nat) (size : Int) (k : Nat) : List Nat × List Nat :=
  (stream.take (read_amount stream size k), stream.drop (read_amount stream size k))

/-- Loop body of `read_full_noblock` of src/plugins/__init__.py: `size` is the
original argument, `l` the running remaining size (`l = size - bytes read so
far` when `size > 0`, else `l = size`).  Each iteration performs one
`read_noblock` with budget `l`, stops on an empty chunk, and otherwise
accumulates. -/
def read_full_go (size : Int) (l : Int) (stream : List Nat) (ks : List Nat) : List Nat :=
  if hn : read_amount stream l (ks.headD 0) = 0 then []
  else
    stream.take (read_amount stream l (ks.headD 0)) ++
      read_full_go size
        (if size > 0 then l - (read_amount stream l (ks.headD 0) : Int) else l)
        (stream.drop (read_amount stream l (ks.headD 0))) ks.tail
termination_by stream.length
decreasing_by
  simp only [List.length_drop]
  have hle : read_amount stream l (ks.headD 0) ≤ stream.length := by
    simp only [read_amount]
    split
    · omega
    · split <;> omega
  have hpos : 0 < read_amount stream l (ks.headD 0) := Nat.pos_of_ne_zero hn
  have hs : stream ≠ [] := by
    intro h
    simp [read_amount, h] at hpos
  have : 0 < stream.length := List.length_pos.mpr hs
  omega

/-- `read_full_noblock` of src/plugins/__init__.py: read until at least `size`
bytes are collected or EOF (`size = -1`: until EOF). -/
def read_full_noblock (stream : List Nat) (size : Int) (ks : List Nat) : List Nat :=
  read_full_go size size stream ks

/-- Loop of `discard_noblock` of src/plugins/__init__.py: read in
`READ_BUF_SIZE` chunks until EOF, dropping the bytes; returns the bytes that
were read and discarded. -/
def discard_go (stream : List Nat) (ks : List Nat) : List Nat :=
  if hn : read_amount stream READ_BUF_SIZE (ks.headD 0) = 0 then []
  else
    stream.take (read_amount stream READ_BUF_SIZE (ks.headD 0)) ++
      discard_go (stream.drop (read_amount stream READ_BUF_SIZE (ks.headD 0))) ks.tail
termination_by stream.length
decreasing_by
  simp only [List.length_drop]
  have hle : read_amount stream READ_BUF_SIZE (ks.headD 0) ≤ stream.length := by
    simp only [read_amount]
    split
    · omega
    · split <;> omega
  have hpos : 0 < read_amount stream READ_BUF_SIZE (ks.headD 0) := Nat.pos_of_ne_zero hn
  have hs : stream ≠ [] := by
    intro h
    simp [read_amount, h] at hpos
  have : 0 < stream.length := List.length_pos.mpr hs
  omega

/-- `connect_noblock` of src/plugins/__init__.py (data plane): copy up to
`rsize` bytes (`-1` = unbounded) from the stream to the writer.  Returns
`(written bytes, remaining unread stream)`; the `RuntimeError` raised when the
remaining size turns negative is the `.error` case.  Branch structure follows
the source: `rsize == -1` reads `READ_BUF_SIZE` chunks without accounting,
`rsize > READ_BUF_SIZE` reads `READ_BUF_SIZE` chunks with accounting, and the
final branch reads `rsize` bytes, checks the invariant, and stops at 0. -/
def connect_noblock (rsize : Int) (stream : List Nat) (ks : List Nat) :
    Except String (List Nat × List Nat) :=
  if rsize = 0 then .ok ([], stream)
  else if rsize = -1 then
    if hn : read_amount stream READ_BUF_SIZE (ks.headD 0) = 0 then .ok ([], stream)
    else
      match connect_noblock (-1)
          (stream.drop (read_amount stream READ_BUF_SIZE (ks.headD 0))) ks.tail with
      | .ok (w, rest) =>
          .ok (stream.take (read_amount stream READ_BUF_SIZE (ks.headD 0)) ++ w, rest)
      | .error e => .error e
  else if rsize > (READ_BUF_SIZE : Int) then
    if hn : read_amount stream READ_BUF_SIZE (ks.headD 0) = 0 then .ok ([], stream)
    else
      match connect_noblock (rsize - (read_amount stream READ_BUF_SIZE (ks.headD 0) : Int))
          (stream.drop (read_amount stream READ_BUF_SIZE (ks.headD 0))) ks.tail with
      | .ok (w, rest) =>
          .ok (stream.take (read_amount stream READ_BUF_SIZE (ks.headD 0)) ++ w, rest)
      | .error e => .error e
  else
    if rsize - (read_amount stream rsize (ks.headD 0) : Int) < 0 then
      .error "Unexpected remaining size to read"
    else if hn : read_amount stream rsize (ks.headD 0) = 0 then .ok ([], stream)
    else
      match connect_noblock (rsize - (read_amount stream rsize (ks.headD 0) : Int))
          (stream.drop (read_amount stream rsize (ks.headD 0))) ks.tail with
      | .ok (w, rest) =>
          .ok (stream.take (read_amount stream rsize (ks.headD 0)) ++ w, rest)
      | .error e => .error e
termination_by stream.length
decreasing_by
  all_goals
    simp only [List.length_drop]
    first
      | (have hle : read_amount stream READ_BUF_SIZE (ks.headD 0) ≤ stream.length := by
           simp only [read_amount]
           split
           · omega
           · split <;> omega
         have hpos : 0 < read_amount stream READ_BUF_SIZE (ks.headD 0) :=
           Nat.pos_of_ne_zero hn
         have hs : stream ≠ [] := by
           intro h
           simp [read_amount, h] at hpos
         have : 0 < stream.length := List.length_pos.mpr hs
         omega)
      | (have hle : read_amount stream rsize (ks.headD 0) ≤ stream.length := by
           simp only [read_amount]
           split
           · omega
           · split <;> omega
         have hpos : 0 < read_amount stream rsize (ks.headD 0) :=
           Nat.pos_of_ne_zero hn
         have hs : stream ≠ [] := by
           intro h
           simp [read_amount, h] at hpos
         have : 0 < stream.length := List.length_pos.mpr hs
         omega)

/-- Result of one direction of the byte-limit filter
(src/plugins/byte_limit.py `connect_then_discard`): the bytes delivered
downstream, the bytes read and discarded afterwards, the bytes never read from
the upstream, and the closed state of the downstream writable end (`dst`) and
the upstream readable end (`src`). -/
structure DirOutcome where
  delivered : List Nat
  discarded : List Nat
  leftover : List Nat
  dstClosed : Bool
  srcClosed : Bool
deriving Repr, DecidableEq

/-- `QrexecProxyPlugin_byte_limit.connect_then_discard` of
src/plugins/byte_limit.py: `connect_noblock(src, dst, size=size, close=False)`,
then `dst.close()`, then `discard_noblock(src)` (which closes the reader). -/
def connect_then_discard (stream : List Nat) (size : Int) (ks ks2 : List Nat) :
    Except String DirOutcome :=
  match connect_noblock size stream ks with
  | .error e => .error e
  | .ok (w, rest) =>
      .ok { delivered := w
            discarded := discard_go rest ks2
            leftover := rest.drop (discard_go rest ks2).length
            dstClosed := true
            srcClosed := true }

/-- `QrexecProxyPlugin_byte_limit.proxy` of src/plugins/byte_limit.py:
`asyncio.gather` of `connect_then_discard(src_r, dst_w, src2dst_limit)` and
`connect_then_discard(dst_r, src_w, dst2src_limit)`.  The two half-streams are
independent; each gets its own input stream and read oracles. -/
def byte_limit_proxy (s2d d2s : Int) (srcStream dstStream : List Nat)
    (ks1 ks2 ks3 ks4 : List Nat) : Except String (DirOutcome × DirOutcome) :=
  match connect_then_discard srcStream s2d ks1 ks2,
        connect_then_discard dstStream d2s ks3 ks4 with
  | .ok f, .ok r => .ok (f, r)
  | .error e, _ => .error e
  | .ok _, .error e => .error e

/-- JSON-like configuration values as found in plugins/config.json. -/
inductive CVal where
  | null
  | str (s : String)
  | int (n : Int)
  | map (entries : List (String × CVal))

/-- Python truthiness for configuration values: `None`, `""`, `0` and the
empty dict are falsy. -/
def pyTruthy : CVal → Bool
  | .null => false
  | .str s => s ≠ ""
  | .int n => n ≠ 0
  | .map m => !m.isEmpty

/-- First-match association lookup, i.e. Python `dict.get` on a dict modelled
as a key-ordered association list with unique keys. -/
def lookupA : List (String × CVal) → String → Option CVal
  | [], _ => none
  | (k, v) :: rest, key => if k = key then some v else lookupA rest key

/-- Per-stage configuration resolution of src/qrexec-proxy.py `main`
(lines 196-202): `pconf = conf.get(chain).get('config')`; if that is truthy,
try `pconf[str(i)]` and on `KeyError` fall back to `pconf.get(plugin)`.
The result is the object passed as `config=` to the stage constructor
(`none` models Python `None`). -/
def resolve_stage_config (chainConfig : Option (List (String × CVal))) (i : Nat)
    (p : String) : Option CVal :=
  match chainConfig with
  | none => none
  | some m =>
      if m.isEmpty then some (.map m)
      else
        match lookupA m (toString i) with
        | some v => some v
        | none => lookupA m p

/-- `QrexecProxyPlugin.__init__` of src/plugins/__init__.py: stores the passed
config, replacing a falsy one (`None`, empty dict, ...) by an empty dict, so
the plugin always sees a value. -/
def plugin_config (c : Option CVal) : CVal :=
  match c with
  | none => .map []
  | some v => if pyTruthy v then v else .map []

/-- Python exception kinds relevant to plugin constructors. -/
inductive PyErr where
  | keyError
  | valueError
  | typeError
  | runtimeError
deriving Repr, DecidableEq

/-- Python `int(v)` on a configuration value: ints pass through, strings are
parsed (`ValueError` on junk), `None` and dicts raise `TypeError`. -/
def pyInt : CVal → Except PyErr Int
  | .int n => .ok n
  | .str s =>
      match s.toInt? with
      | some n => .ok n
      | none => .error .valueError
  | .null => .error .typeError
  | .map _ => .error .typeError

/-- Python `self.config['key']`: indexing a dict raises `KeyError` when the
key is missing; indexing a non-dict raises `TypeError`. -/
def cfgIndex (c : CVal) (k : String) : Except PyErr CVal :=
  match c with
  | .map m =>
      match lookupA m k with
      | some v => .ok v
      | none => .error .keyError
  | _ => .error .typeError

/-- The `except (KeyError, ValueError)` handler of
`QrexecProxyPlugin_byte_limit.__init__`: those two kinds become the
`RuntimeError` asking the user to fix config.json; anything else propagates. -/
def catchCfg : PyErr → PyErr
  | .keyError => .runtimeError
  | .valueError => .runtimeError
  | e => e

/-- `QrexecProxyPlugin_byte_limit.__init__` of src/plugins/byte_limit.py:
run the base constructor on the passed config, then parse
`int(self.config['src2dst_limit'])` and `int(self.config['dst2src_limit'])`,
turning `KeyError`/`ValueError` into a `RuntimeError`. -/
def byte_limit_init (config : Option CVal) : Except PyErr (Int × Int) :=
  match
    (do
      let a ← (cfgIndex (plugin_config config) "src2dst_limit").bind pyInt
      let b ← (cfgIndex (plugin_config config) "dst2src_limit").bind pyInt
      pure (a, b) : Except PyErr (Int × Int)) with
  | .ok p => .ok p
  | .error e => .error (catchCfg e)

/-- The fixed configuration that `QrexecProxyPlugin_stop_dst.__init__` of
src/plugins/stop_dst.py hands to its parent class. -/
def stop_dst_fixed_config : CVal :=
  .map [("src2dst_limit", .int (-1)), ("dst2src_limit", .int 0)]

/-- `QrexecProxyPlugin_stop_dst.__init__` of src/plugins/stop_dst.py: ignores
the user-supplied config entirely and runs the byte-limit constructor on the
fixed config. -/
def stop_dst_init (_config : Option CVal) : Except PyErr (Int × Int) :=
  byte_limit_init (some stop_dst_fixed_config)

/-- A full byte-limit stage: constructor on the user config, then `proxy` on
the two half-stream inputs (stop_dst inherits `proxy` unchanged). -/
def byte_limit_run (config : Option CVal) (srcStream dstStream : List Nat)
    (ks1 ks2 ks3 ks4 : List Nat) : Except PyErr (Except String (DirOutcome × DirOutcome)) :=
  match byte_limit_init config with
  | .error e => .error e
  | .ok (a, b) => .ok (byte_limit_proxy a b srcStream dstStream ks1 ks2 ks3 ks4)

/-- A full stop-destination stage: its constructor, then the inherited
byte-limit `proxy`. -/
def stop_dst_run (config : Option CVal) (srcStream dstStream : List Nat)
    (ks1 ks2 ks3 ks4 : List Nat) : Except PyErr (Except String (DirOutcome × DirOutcome)) :=
  match stop_dst_init config with
  | .error e => .error e
  | .ok (a, b) => .ok (byte_limit_proxy a b srcStream dstStream ks1 ks2 ks3 ks4)

/-- `QrexecProxyPlugin_count.update_counters` of src/plugins/count.py, run
under the `SysLock`: times are integer unix timestamps (`now = int(time.time())`),
the file holds one timestamp per line.  Entries with `now - otime <
limit_interval` are kept (in order); if at least `limit` entries were kept the
`AbortException` is raised, otherwise `now` is appended.  The `finally` block
rewrites the file with exactly the surviving entries in both cases, so the
second component is the new file content on admission and on refusal alike. -/
def update_counters (limit : Nat) (limit_interval : Int) (now : Int)
    (fileContent : List Int) : Except String Unit × List Int :=
  let out := fileContent.filter (fun otime => now - otime < limit_interval)
  if limit ≤ out.length then
    (.error "AbortException: the connection limit was reached for the chain", out)
  else (.ok (), out ++ [now])

/-- A sequence of sessions of the count plugin for one chain: each session at
time `t` runs `update_counters` on the current counter file (serialised by the
cross-process lock) and is admitted exactly when no exception is raised.
Returns the final file content and the times of the admitted sessions. -/
def count_run (limit : Nat) (limit_interval : Int) (file : List Int) :
    List Int → List Int × List Int
  | [] => (file, [])
  | t :: ts =>
      match update_counters limit limit_interval t file with
      | (.ok _, file2) =>
          let r := count_run limit limit_interval file2 ts
          (r.1, t :: r.2)
      | (.error _, file2) =>
          count_run limit limit_interval file2 ts

/-- Events of the streamline plugin (src/plugins/streamline.py), with times in
integer milliseconds: a random pre-read delay, a random pre-write delay, a
buffered read, a buffered write. -/
inductive SEvent where
  | sleepRead (ms : Nat)
  | sleepWrite (ms : Nat)
  | readEv (chunk : List Nat)
  | writeEv (chunk : List Nat)
deriving Repr, DecidableEq

/-- `QrexecProxyPlugin_streamline.sleep` of src/plugins/streamline.py with the
delay bound in integer milliseconds: a zero bound returns immediately without
drawing randomness; otherwise `secrets.randbelow(maxMs)` yields `r % maxMs`
(uniform on 0..maxMs-1) for the oracle entry `r`, which is consumed. -/
def streamline_sleep (mk : Nat → SEvent) (maxMs : Nat) (rs : List Nat) :
    List SEvent × List Nat :=
  if maxMs = 0 then ([], rs)
  else ([mk (rs.headD 0 % maxMs)], rs.tail)

/-- `QrexecProxyPlugin_streamline.connect_streamline` of
src/plugins/streamline.py: on every iteration except the first (`if i > 0`)
sleep up to `delay_read`, then `read_full_noblock(reader, buf_size)`; stop on
an empty buffer; otherwise sleep up to `delay_write`, write the buffer, stop if
it was shorter than `buf_size`.  `kss` supplies one read oracle per
`read_full_noblock` call, `rs` the randomness for the sleeps.  The result is
the ordered event trace of the loop. -/
def connect_streamline_go (bufSize dRead dWrite : Nat) (i : Nat)
    (stream : List Nat) (kss : List (List Nat)) (rs : List Nat) : List SEvent :=
  let s1 := if i = 0 then ([], rs) else streamline_sleep SEvent.sleepRead dRead rs
  let buf := read_full_noblock stream (bufSize : Int) (kss.headD [])
  if hb : buf.isEmpty then s1.1 ++ [SEvent.readEv buf]
  else
    let s2 := streamline_sleep SEvent.sleepWrite dWrite s1.2
    if buf.length < bufSize then
      s1.1 ++ [SEvent.readEv buf] ++ s2.1 ++ [SEvent.writeEv buf]
    else
      s1.1 ++ [SEvent.readEv buf] ++ s2.1 ++ [SEvent.writeEv buf] ++
        connect_streamline_go bufSize dRead dWrite (i + 1)
          (stream.drop buf.length) kss.tail s2.2
termination_by stream.length
decreasing_by
  simp only [List.length_drop]
  have hbuf : ¬ buf = [] := by
    simpa using hb
  have hpos : 0 < buf.length := List.length_pos.mpr hbuf
  have hpos2 : 0 < (read_full_noblock stream (bufSize : Int) (kss.headD [])).length := hpos
  have hs : stream ≠ [] := by
    intro h
    apply hbuf
    simp only [buf, read_full_noblock, h]
    rw [read_full_go]
    simp [read_amount]
  have : 0 < stream.length := List.length_pos.mpr hs
  omega

/-- One direction of `QrexecProxyPlugin_streamline.proxy`: the loop starting
with iteration counter `i = 0`. -/
def connect_streamline (bufSize dRead dWrite : Nat) (stream : List Nat)
    (kss : List (List Nat)) (rs : List Nat) : List SEvent :=
  connect_streamline_go bufSize dRead dWrite 0 stream kss rs

/-- The chunks written by a streamline trace, in order. -/
def traceWrites : List SEvent → List (List Nat)
  | [] => []
  | .writeEv c :: rest => c :: traceWrites rest
  | _ :: rest => traceWrites rest

/-- Exit status of a stage task in the cooperative scheduler: normal return,
raised exception, or cancellation. -/
inductive Outcome where
  | normal
  | error (e : String)
  | cancelled
deriving Repr, DecidableEq

/-- Closing a pipe endpoint (identified by a numeric file descriptor) in a
state that records the set of closed endpoints; `close` on an already-closed
file object is a no-op. -/
def closePipe (st : List Nat) (p : Nat) : List Nat :=
  if p ∈ st then st else p :: st

/-- A `try ... finally` whose body finishes with the given outcome: the
cleanup runs on every exit path (normal return, exception, cancellation) and
the body's outcome is preserved. -/
def run_finally (bodyEffect : List Nat → List Nat) (outcome : Outcome)
    (cleanup : List Nat → List Nat) (st : List Nat) : List Nat × Outcome :=
  (cleanup (bodyEffect st), outcome)

/-- `proxy_wrapper` of src/qrexec-proxy.py: run the stage's `proxy` body
(modelled by the set of endpoints it chooses to close and its outcome) and in
the `finally` close every one of the passed pipe endpoints. -/
def proxy_wrapper (pipes : List Nat) (bodyCloses : List Nat) (outcome : Outcome)
    (st : List Nat) : List Nat × Outcome :=
  run_finally (fun s => bodyCloses.foldl closePipe s) outcome
    (fun s => pipes.foldl closePipe s) st

/-- Result of one scheduled task, in completion order: `.ok` for a normal
return (the coroutines of src/qrexec-proxy.py return `None`), `.err` for a
raised exception. -/
inductive TaskResult where
  | ok
  | err (e : String)
deriving Repr, DecidableEq

/-- `asyncio.wait(..., return_when=asyncio.FIRST_EXCEPTION)` over the tasks
listed in completion order: returns `(done, pending)` where `done` is the
prefix up to and including the first task that raised (all tasks when none
raises) and `pending` is everything still running at that point. -/
def waitFirstException : List TaskResult → List TaskResult × List TaskResult
  | [] => ([], [])
  | .ok :: ts =>
      let r := waitFirstException ts
      (.ok :: r.1, r.2)
  | .err e :: ts => ([.err e], ts)

/-- The `for task in done` loop of src/qrexec-proxy.py `main`: evaluating
`task.result()` re-raises the exception of a failed task (so the
`isinstance(..., Exception)` guard propagates the first failure found in
`done`); a normally returned `None` is not an `Exception` and is skipped. -/
def collectResults : List TaskResult → Except String Unit
  | [] => .ok ()
  | .ok :: ts => collectResults ts
  | .err e :: _ => .error e

/-- What the engine run of src/qrexec-proxy.py `main` (lines 216-229)
produces: the session result and the tasks on which `task.cancel()` was called
by the `finally` block. -/
structure EngineOutcome where
  result : Except String Unit
  cancelled : List TaskResult
deriving Repr

/-- The engine run of src/qrexec-proxy.py `main`: await all tasks with
first-exception semantics, re-raise the first error found among the completed
tasks, and in the `finally` cancel every still-pending task. -/
def engine_run (tasks : List TaskResult) : EngineOutcome :=
  let dp := waitFirstException tasks
  { result := collectResults dp.1, cancelled := dp.2 }

/-- The first exception raised by any task, in completion order. -/
def firstError : List TaskResult → Option String
  | [] => none
  | .ok :: ts => firstError ts
  | .err e :: _ => some e

/-- Plugin stage roles (spec section 4.3). -/
inductive Role where
  | source
  | filter
  | dest
deriving Repr, DecidableEq

/-- Chain after end-slot resolution: `none` in an end slot means the built-in
default stage is used; `filters` is the residual ordered filter list. -/
structure ResolvedChain where
  sourceSlot : Option String
  filters : List String
  destSlot : Option String
deriving Repr, DecidableEq

/-- Modelled from the spec: the end-slot resolution policy of the session
driver (spec section 4.4).  The entry point implementing it is not part of
src/ — src/qrexec-proxy.py always uses the built-in endpoints, while
src/plugins/default.py declares the Source/Destination classes this driver
loads.  `reg name role` says whether the plugin loader resolves `name` to a
class of role `role`.  For the Source slot the first listed stage is tried as
a Source role: if it resolves it is consumed, otherwise the built-in default
Source is used and the stage stays in the filter list; symmetrically the last
remaining stage is tried as the Destination slot. -/
def resolve_end_slots (reg : String → Role → Bool) (plugins : List String) :
    ResolvedChain :=
  let s1 : Option String × List String :=
    match plugins with
    | [] => (none, [])
    | p :: ps => if reg p .source then (some p, ps) else (none, p :: ps)
  let s2 : Option String × List String :=
    match s1.2.getLast? with
    | none => (none, s1.2)
    | some q => if reg q .dest then (some q, s1.2.dropLast) else (none, s1.2)
  { sourceSlot := s1.1, filters := s2.2, destSlot := s2.1 }

/-- Checks that every read event in a trace is immediately preceded by a
pre-read delay event; `allowBare` permits one leading read without a delay
(the first read), `prev` is the event preceding the trace. -/
def delayedReads (allowBare : Bool) (prev : Option SEvent) : List SEvent → Bool
  | [] => true
  | .readEv c :: rest =>
      (match prev with
       | some (.sleepRead _) => true
       | _ => allowBare) && delayedReads false (some (.readEv c)) rest
  | e :: rest => delayedReads allowBare (some e) rest

/-- Checks that every write event in a trace is immediately preceded by a
pre-write delay event; `prev` is the event preceding the trace. -/
def delayedWrites (prev : Option SEvent) : List SEvent → Bool
  | [] => true
  | .writeEv c :: rest =>
      (match prev with
       | some (.sleepWrite _) => true
       | _ => false) && delayedWrites (some (.writeEv c)) rest
  | e :: rest => delayedWrites (some e) rest

/-- Checks that every delay in the trace is strictly below the configured
bound (`secrets.randbelow` never reaches the bound). -/
def delaysWithin (dRead dWrite : Nat) : List SEvent → Bool
  | [] => true
  | .sleepRead d :: rest => decide (d < dRead) && delaysWithin dRead dWrite rest
  | .sleepWrite d :: rest => decide (d < dWrite) && delaysWithin dRead dWrite rest
  | _ :: rest => delaysWithin dRead dWrite rest

/-! ## Helper lemmas about the byte-channel primitives -/

theorem read_amount_le_length (stream : List Nat) (size : Int) (k : Nat) :
    read_amount stream size k ≤ stream.length := by
  simp only [read_amount]
  split
  · omega
  · split <;> omega

theorem read_amount_le_toNat (stream : List Nat) (size : Int) (k : Nat) (h : ¬ size < 0) :
    read_amount stream size k ≤ size.toNat := by
  simp only [read_amount]
  split
  all_goals first
    | omega
    | (split <;> omega)

theorem read_amount_pos (stream : List Nat) (size : Int) (k : Nat) (hs : 1 ≤ size)
    (hne : stream ≠ []) : 0 < read_amount stream size k := by
  have hlen : 0 < stream.length := List.length_pos.mpr hne
  simp only [read_amount]
  split
  · rename_i hemp
    exact absurd (List.isEmpty_iff.mp hemp) hne
  · split <;> omega

theorem one_le_rbs : (1 : Int) ≤ (READ_BUF_SIZE : Int) := by
  norm_num [READ_BUF_SIZE]

theorem take_eq_nil_of_read_amount_zero (stream : List Nat) (l : Int) (k : Nat)
    (hl : 0 ≤ l) (h0 : read_amount stream l k = 0) : stream.take l.toNat = [] := by
  simp only [read_amount] at h0
  by_cases he : stream.isEmpty = true
  · rw [List.isEmpty_iff.mp he]
    simp
  · rw [if_neg he, if_neg (by omega : ¬ l < 0)] at h0
    have hc : l.toNat = 0 ∨ stream.length = 0 := by omega
    rcases hc with h | h
    · simp [h]
    · simp [List.length_eq_zero.mp h]

theorem read_full_go_eq_take (size : Int) (hsz : 0 < size) :
    ∀ n (stream : List Nat) (l : Int) (ks : List Nat), stream.length = n → 0 ≤ l →
      read_full_go size l stream ks = stream.take l.toNat := by
  intro n
  induction n using Nat.strong_induction_on with
  | _ n ih =>
    intro stream l ks hlen hl
    rw [read_full_go]
    by_cases h0 : read_amount stream l (ks.headD 0) = 0
    · rw [dif_pos h0, take_eq_nil_of_read_amount_zero stream l (ks.headD 0) hl h0]
    · rw [dif_neg h0]
      have hle : read_amount stream l (ks.headD 0) ≤ stream.length :=
        read_amount_le_length _ _ _
      have hlesz : read_amount stream l (ks.headD 0) ≤ l.toNat :=
        read_amount_le_toNat _ _ _ (by omega)
      have hpos : 0 < read_amount stream l (ks.headD 0) := Nat.pos_of_ne_zero h0
      rw [if_pos hsz]
      rw [ih ((stream.drop (read_amount stream l (ks.headD 0))).length)
          (by simp only [List.length_drop]; omega)
          (stream.drop (read_amount stream l (ks.headD 0)))
          (l - (read_amount stream l (ks.headD 0) : Int)) ks.tail rfl (by omega)]
      have e1 : (l - (read_amount stream l (ks.headD 0) : Int)).toNat
          = l.toNat - read_amount stream l (ks.headD 0) := by omega
      rw [e1, ← List.take_add]
      congr 1
      omega

theorem read_full_noblock_take (stream : List Nat) (ks : List Nat) (n : Nat) :
    read_full_noblock stream (n : Int) ks = stream.take n := by
  cases n with
  | zero =>
      have h0 : read_amount stream ((0 : Nat) : Int) (ks.headD 0) = 0 := by
        simp [read_amount]
      rw [read_full_noblock, read_full_go, dif_pos h0]
      simp
  | succ m =>
      rw [read_full_noblock,
        read_full_go_eq_take ((m + 1 : Nat) : Int) (by exact_mod_cast Nat.succ_pos m)
          stream.length stream ((m + 1 : Nat) : Int) ks rfl (by positivity)]
      simp

theorem discard_go_eq : ∀ n (stream : List Nat) (ks : List Nat), stream.length = n →
    discard_go stream ks = stream := by
  intro n
  induction n using Nat.strong_induction_on with
  | _ n ih =>
    intro stream ks hlen
    rw [discard_go]
    by_cases h0 : read_amount stream READ_BUF_SIZE (ks.headD 0) = 0
    · rw [dif_pos h0]
      by_cases he : stream = []
      · rw [he]
      · exfalso
        have := read_amount_pos stream READ_BUF_SIZE (ks.headD 0) one_le_rbs he
        omega
    · rw [dif_neg h0]
      have hle := read_amount_le_length stream (READ_BUF_SIZE : Int) (ks.headD 0)
      have hpos := Nat.pos_of_ne_zero h0
      rw [ih ((stream.drop (read_amount stream READ_BUF_SIZE (ks.headD 0))).length)
          (by simp only [List.length_drop]; omega) _ ks.tail rfl]
      exact List.take_append_drop _ _

/-- Claim C8: read-exactly (`read_full_noblock`) accumulates repeated
`read_noblock` chunks and, for every non-blocking reader (stream plus read
oracle) and byte budget `n ≥ 0`, returns a byte string of length at most `n`;
a result shorter than `n` means EOF was observed (the whole stream was
consumed), and the result is a prefix of the reader's stream, in order and
without duplication. -/
theorem read_full_noblock_spec (stream : List Nat) (ks : List Nat) (n : Nat) :
    (read_full_noblock stream (n : Int) ks).length ≤ n ∧
    ((read_full_noblock stream (n : Int) ks).length < n →
      read_full_noblock stream (n : Int) ks = stream) ∧
    read_full_noblock stream (n : Int) ks <+: stream := by
  rw [read_full_noblock_take]
  refine ⟨by simp, ?_, ⟨stream.drop n, List.take_append_drop n stream⟩⟩
  intro hlt
  rw [List.length_take] at hlt
  have : stream.length < n := by omega
  exact List.take_of_length_le (by omega)

/-- Witness for claim C8 at a concrete input: reading 2 bytes from a 3-byte
stream yields the 2-byte prefix, and the EOF implication is vacuously
checkable; reading 5 bytes from the same stream returns all 3 bytes, which is
shorter than 5 because EOF was hit. -/
theorem read_full_noblock_spec_witness :
    (read_full_noblock [7, 8, 9] ((5 : Nat) : Int) [1, 1, 1, 1, 1, 1]).length < 5 ∧
    read_full_noblock [7, 8, 9] ((5 : Nat) : Int) [1, 1, 1, 1, 1, 1] = [7, 8, 9] := by
  have h := read_full_noblock_spec [7, 8, 9] [1, 1, 1, 1, 1, 1] 5
  have hlen : (read_full_noblock [7, 8, 9] ((5 : Nat) : Int) [1, 1, 1, 1, 1, 1]).length < 5 := by
    rw [read_full_noblock_take]
    decide
  exact ⟨hlen, h.2.1 hlen⟩

theorem connect_noblock_eval : ∀ n (stream : List Nat) (ks : List Nat) (rsize : Int),
    stream.length = n → -1 ≤ rsize →
    connect_noblock rsize stream ks =
      .ok (if rsize < 0 then (stream, ([] : List Nat))
           else (stream.take rsize.toNat, stream.drop rsize.toNat)) := by
  intro n
  induction n using Nat.strong_induction_on with
  | _ n ih =>
    intro stream ks rsize hlen hr
    rw [connect_noblock]
    by_cases h0 : rsize = 0
    · subst h0
      simp
    by_cases h1 : rsize = -1
    · subst h1
      rw [if_neg h0, if_pos rfl]
      by_cases hz : read_amount stream READ_BUF_SIZE (ks.headD 0) = 0
      · rw [dif_pos hz]
        have he : stream = [] := by
          by_contra hne
          have := read_amount_pos stream READ_BUF_SIZE (ks.headD 0) one_le_rbs hne
          omega
        simp [he]
      · rw [dif_neg hz]
        have hle := read_amount_le_length stream (READ_BUF_SIZE : Int) (ks.headD 0)
        have hpos := Nat.pos_of_ne_zero hz
        rw [ih ((stream.drop (read_amount stream READ_BUF_SIZE (ks.headD 0))).length)
            (by simp only [List.length_drop]; omega) _ ks.tail (-1) rfl (by omega)]
        simp [List.take_append_drop]
    by_cases h2 : rsize > (READ_BUF_SIZE : Int)
    · rw [if_neg h0, if_neg h1, if_pos h2]
      by_cases hz : read_amount stream READ_BUF_SIZE (ks.headD 0) = 0
      · rw [dif_pos hz]
        have he : stream = [] := by
          by_contra hne
          have := read_amount_pos stream READ_BUF_SIZE (ks.headD 0) one_le_rbs hne
          omega
        rw [if_neg (by omega : ¬ rsize < 0)]
        simp [he]
      · rw [dif_neg hz]
        have hle := read_amount_le_length stream (READ_BUF_SIZE : Int) (ks.headD 0)
        have hamtle : read_amount stream (READ_BUF_SIZE : Int) (ks.headD 0)
            ≤ READ_BUF_SIZE := by
          have := read_amount_le_toNat stream (READ_BUF_SIZE : Int) (ks.headD 0)
            (by omega)
          omega
        have hpos := Nat.pos_of_ne_zero hz
        rw [ih ((stream.drop (read_amount stream READ_BUF_SIZE (ks.headD 0))).length)
            (by simp only [List.length_drop]; omega) _ ks.tail
            (rsize - (read_amount stream READ_BUF_SIZE (ks.headD 0) : Int)) rfl (by omega)]
        rw [if_neg (by omega :
          ¬ rsize - (read_amount stream READ_BUF_SIZE (ks.headD 0) : Int) < 0),
          if_neg (by omega : ¬ rsize < 0)]
        have e1 : (rsize - (read_amount stream READ_BUF_SIZE (ks.headD 0) : Int)).toNat
            = rsize.toNat - read_amount stream READ_BUF_SIZE (ks.headD 0) := by omega
        have e2 : rsize.toNat
            = read_amount stream READ_BUF_SIZE (ks.headD 0)
              + (rsize.toNat - read_amount stream READ_BUF_SIZE (ks.headD 0)) := by omega
        simp only [e1]
        have key1 : List.take rsize.toNat stream
            = List.take (read_amount stream READ_BUF_SIZE (ks.headD 0)) stream
              ++ List.take (rsize.toNat - read_amount stream READ_BUF_SIZE (ks.headD 0))
                  (List.drop (read_amount stream READ_BUF_SIZE (ks.headD 0)) stream) := by
          conv_lhs => rw [e2]
          exact List.take_add ..
        have key2 : List.drop rsize.toNat stream
            = List.drop (rsize.toNat - read_amount stream READ_BUF_SIZE (ks.headD 0))
                (List.drop (read_amount stream READ_BUF_SIZE (ks.headD 0)) stream) := by
          rw [List.drop_drop]
          all_goals congr 1
          all_goals omega
        rw [key1, key2]
    · rw [if_neg h0, if_neg h1, if_neg h2]
      have hr1 : 1 ≤ rsize := by omega
      have hamtle : read_amount stream rsize (ks.headD 0) ≤ rsize.toNat :=
        read_amount_le_toNat stream rsize (ks.headD 0) (by omega)
      rw [if_neg (by omega : ¬ rsize - (read_amount stream rsize (ks.headD 0) : Int) < 0)]
      by_cases hz : read_amount stream rsize (ks.headD 0) = 0
      · rw [dif_pos hz]
        have he : stream = [] := by
          by_contra hne
          have := read_amount_pos stream rsize (ks.headD 0) hr1 hne
          omega
        rw [if_neg (by omega : ¬ rsize < 0)]
        simp [he]
      · rw [dif_neg hz]
        have hle := read_amount_le_length stream rsize (ks.headD 0)
        have hpos := Nat.pos_of_ne_zero hz
        rw [ih ((stream.drop (read_amount stream rsize (ks.headD 0))).length)
            (by simp only [List.length_drop]; omega) _ ks.tail
            (rsize - (read_amount stream rsize (ks.headD 0) : Int)) rfl (by omega)]
        rw [if_neg (by omega :
          ¬ rsize - (read_amount stream rsize (ks.headD 0) : Int) < 0),
          if_neg (by omega : ¬ rsize < 0)]
        have e1 : (rsize - (read_amount stream rsize (ks.headD 0) : Int)).toNat
            = rsize.toNat - read_amount stream rsize (ks.headD 0) := by omega
        have e2 : rsize.toNat
            = read_amount stream rsize (ks.headD 0)
              + (rsize.toNat - read_amount stream rsize (ks.headD 0)) := by omega
        simp only [e1]
        have key1 : List.take rsize.toNat stream
            = List.take (read_amount stream rsize (ks.headD 0)) stream
              ++ List.take (rsize.toNat - read_amount stream rsize (ks.headD 0))
                  (List.drop (read_amount stream rsize (ks.headD 0)) stream) := by
          conv_lhs => rw [e2]
          exact List.take_add ..
        have key2 : List.drop rsize.toNat stream
            = List.drop (rsize.toNat - read_amount stream rsize (ks.headD 0))
                (List.drop (read_amount stream rsize (ks.headD 0)) stream) := by
          rw [List.drop_drop]
          all_goals congr 1
          all_goals omega
        rw [key1, key2]

/-- Claim C10: in `connect_noblock`, given that the model's `read_noblock`
returns at most the requested number of bytes (which `read_amount_le_toNat`
guarantees for every non-negative request), the remaining-size counter never
becomes negative and the `RuntimeError` branch is unreachable: for every limit
`size ≥ -1`, every input stream and every read schedule the function returns
`.ok`. -/
theorem connect_noblock_no_error (size : Int) (h : -1 ≤ size)
    (stream ks : List Nat) :
    ∃ p, connect_noblock size stream ks = Except.ok p :=
  ⟨_, connect_noblock_eval stream.length stream ks size rfl h⟩

/-- Witness for claim C10 at a concrete input. -/
theorem connect_noblock_no_error_witness :
    (-1 : Int) ≤ 3 ∧
    ∃ p, connect_noblock 3 [1, 2, 3, 4, 5] [2, 2, 2] = Except.ok p :=
  ⟨by decide, connect_noblock_no_error 3 (by decide) [1, 2, 3, 4, 5] [2, 2, 2]⟩

theorem connect_then_discard_eval (stream : List Nat) (size : Int) (hs : -1 ≤ size)
    (ks ks2 : List Nat) :
    connect_then_discard stream size ks ks2 =
      .ok { delivered := if size < 0 then stream else stream.take size.toNat
            discarded := if size < 0 then [] else stream.drop size.toNat
            leftover := []
            dstClosed := true
            srcClosed := true } := by
  simp only [connect_then_discard,
    connect_noblock_eval stream.length stream ks size rfl hs]
  by_cases hlt : size < 0
  · simp only [if_pos hlt]
    rw [discard_go_eq ([] : List Nat).length [] ks2 rfl]
    simp
  · simp only [if_neg hlt]
    rw [discard_go_eq (stream.drop size.toNat).length (stream.drop size.toNat) ks2 rfl]
    simp
    omega

/-- Claim C4: for the byte-limit filter with `src2dst_limit = L ≥ 0` and a
source-to-destination stream of length `N ≥ L`, exactly the first `L` bytes
are delivered downstream, the downstream writable end is closed, and all
remaining `N - L` upstream bytes are read and discarded (nothing is left
unread to back-pressure the writer); the reverse direction behaves
symmetrically under `dst2src_limit = M`, where `M = -1` copies the whole
stream unbounded. -/
theorem byte_limit_spec (L M : Int) (src dst ks1 ks2 ks3 ks4 : List Nat)
    (hL : 0 ≤ L) (hN : L.toNat ≤ src.length) (hM : -1 ≤ M) :
    ∃ fwd rev,
      byte_limit_proxy L M src dst ks1 ks2 ks3 ks4 = Except.ok (fwd, rev) ∧
      fwd.delivered = src.take L.toNat ∧
      fwd.delivered.length = L.toNat ∧
      fwd.dstClosed = true ∧
      fwd.discarded = src.drop L.toNat ∧
      fwd.discarded.length = src.length - L.toNat ∧
      fwd.leftover = [] ∧
      fwd.srcClosed = true ∧
      (M = -1 → rev.delivered = dst ∧ rev.discarded = []) ∧
      (0 ≤ M → rev.delivered = dst.take M.toNat ∧ rev.discarded = dst.drop M.toNat) ∧
      rev.dstClosed = true ∧ rev.leftover = [] ∧ rev.srcClosed = true := by
  have h1 := connect_then_discard_eval src L (by omega) ks1 ks2
  have h2 := connect_then_discard_eval dst M hM ks3 ks4
  simp only [if_neg (by omega : ¬ L < 0)] at h1
  refine ⟨{ delivered := src.take L.toNat, discarded := src.drop L.toNat, leftover := [],
            dstClosed := true, srcClosed := true },
          { delivered := if M < 0 then dst else dst.take M.toNat,
            discarded := if M < 0 then [] else dst.drop M.toNat, leftover := [],
            dstClosed := true, srcClosed := true },
          ?_, rfl, ?_, rfl, rfl, ?_, rfl, rfl, ?_, ?_, rfl, rfl, rfl⟩
  · simp only [byte_limit_proxy, h1, h2]
  · simp [List.length_take]
    omega
  · simp [List.length_drop]
  · intro hm
    subst hm
    exact ⟨by norm_num, by norm_num⟩
  · intro hm
    constructor
    · simp [if_neg (by omega : ¬ M < 0)]
    · simp [if_neg (by omega : ¬ M < 0)]

/-- Witness for claim C4 at a concrete input: limit 2 on a 4-byte forward
stream delivers the first 2 bytes and discards the other 2; reverse limit -1
delivers the whole reverse stream. -/
theorem byte_limit_spec_witness :
    ∃ fwd rev,
      byte_limit_proxy 2 (-1) [1, 2, 3, 4] [9] [1, 1, 1, 1] [5] [5] [5]
          = Except.ok (fwd, rev) ∧
      fwd.delivered = [1, 2] ∧ fwd.discarded = [3, 4] ∧ rev.delivered = [9] := by
  obtain ⟨fwd, rev, h1, h2, _, _, h5, _, _, _, h9, _⟩ :=
    byte_limit_spec 2 (-1) [1, 2, 3, 4] [9] [1, 1, 1, 1] [5] [5] [5]
      (by decide) (by decide) (by decide)
  exact ⟨fwd, rev, h1, h2.trans (by decide), h5.trans (by decide), (h9 rfl).1⟩

/-- Claim C9: the stop-destination filter equals the byte-limit filter
instantiated with `src2dst_limit = -1` and `dst2src_limit = 0`: for every
user-supplied configuration its constructor produces exactly the limits
`(-1, 0)` (the byte-limit constructor on the fixed config), and for every pair
of half-stream inputs and read schedules the whole stage behaves identically
to that byte-limit instance — all source bytes are delivered forward, zero
bytes are delivered in reverse (the reverse input is read and discarded), and
both stages close all four endpoints the same way. -/
theorem stop_dst_equiv (c : Option CVal) (src dst ks1 ks2 ks3 ks4 : List Nat) :
    stop_dst_run c src dst ks1 ks2 ks3 ks4
        = byte_limit_run (some stop_dst_fixed_config) src dst ks1 ks2 ks3 ks4 ∧
    stop_dst_init c = byte_limit_init (some stop_dst_fixed_config) ∧
    stop_dst_init c = Except.ok (-1, 0) ∧
    stop_dst_run c src dst ks1 ks2 ks3 ks4 =
      Except.ok (Except.ok
        ({ delivered := src, discarded := [], leftover := [],
           dstClosed := true, srcClosed := true },
         { delivered := [], discarded := dst, leftover := [],
           dstClosed := true, srcClosed := true })) := by
  have e : stop_dst_init c = Except.ok (-1, 0) := by rfl
  refine ⟨rfl, rfl, e, ?_⟩
  simp only [stop_dst_run, e]
  simp only [byte_limit_proxy,
    connect_then_discard_eval src (-1) (by decide) ks1 ks2,
    connect_then_discard_eval dst 0 (by decide) ks3 ks4]
  norm_num

theorem mem_closePipe_self (st : List Nat) (p : Nat) : p ∈ closePipe st p := by
  simp only [closePipe]
  split
  · assumption
  · exact List.mem_cons_self _ _

theorem mem_closePipe_of_mem (st : List Nat) (p q : Nat) (h : p ∈ st) :
    p ∈ closePipe st q := by
  simp only [closePipe]
  split
  · exact h
  · exact List.mem_cons_of_mem _ h

theorem mem_foldl_closePipe (l : List Nat) (st : List Nat) (p : Nat)
    (h : p ∈ l ∨ p ∈ st) : p ∈ l.foldl closePipe st := by
  induction l generalizing st with
  | nil =>
      rcases h with h | h
      · cases h
      · exact h
  | cons a t ih =>
      simp only [List.foldl_cons]
      rcases h with h | h
      · rcases List.mem_cons.mp h with h | h
        · subst h
          exact ih _ (Or.inr (mem_closePipe_self st p))
        · exact ih _ (Or.inl h)
      · exact ih _ (Or.inr (mem_closePipe_of_mem st p a h))

/-- Claim C1: the engine wrapper (`proxy_wrapper`) closes all four pipe
endpoints handed to a filter stage after the stage's task completes, on every
exit path — normal return, raised exception and cancellation (the `finally`
block runs in each case) — and regardless of which endpoints the stage's
`proxy` body closed itself (including none); the body's outcome is preserved. -/
theorem proxy_wrapper_closes (sr sw dr dw : Nat) (bodyCloses : List Nat)
    (outcome : Outcome) (st : List Nat) :
    sr ∈ (proxy_wrapper [sr, sw, dr, dw] bodyCloses outcome st).1 ∧
    sw ∈ (proxy_wrapper [sr, sw, dr, dw] bodyCloses outcome st).1 ∧
    dr ∈ (proxy_wrapper [sr, sw, dr, dw] bodyCloses outcome st).1 ∧
    dw ∈ (proxy_wrapper [sr, sw, dr, dw] bodyCloses outcome st).1 ∧
    (proxy_wrapper [sr, sw, dr, dw] bodyCloses outcome st).2 = outcome := by
  refine ⟨?_, ?_, ?_, ?_, rfl⟩ <;>
    exact mem_foldl_closePipe _ _ _ (Or.inl (by simp))

theorem waitFirstException_append (tasks : List TaskResult) :
    (waitFirstException tasks).1 ++ (waitFirstException tasks).2 = tasks := by
  induction tasks with
  | nil => rfl
  | cons t ts ih =>
      cases t <;> simp [waitFirstException, ih]

theorem engine_result_eq (tasks : List TaskResult) :
    (engine_run tasks).result
      = (match firstError tasks with
         | some e => Except.error e
         | none => Except.ok ()) := by
  induction tasks with
  | nil => rfl
  | cons t ts ih =>
      cases t with
      | ok =>
          simpa [engine_run, waitFirstException, collectResults, firstError] using ih
      | err e => rfl

theorem firstError_eq_none (tasks : List TaskResult) :
    firstError tasks = none ↔ ∀ t ∈ tasks, t = TaskResult.ok := by
  induction tasks with
  | nil => simp [firstError]
  | cons t ts ih =>
      cases t <;> simp [firstError, ih]

/-- Claim C2: in the engine run of `main` (await with FIRST_EXCEPTION, then
re-raise the first error among the completed tasks, cancelling the pending
ones in the `finally`): the session result is `ok` exactly when every task
returns normally; when some task raises, the first raised error (in completion
order) becomes the session's error; the cancelled set is exactly the
still-pending tasks, and together the completed and cancelled tasks account
for every scheduled task. -/
theorem engine_first_exception (tasks : List TaskResult) :
    ((engine_run tasks).result = Except.ok () ↔ ∀ t ∈ tasks, t = TaskResult.ok) ∧
    (∀ e, firstError tasks = some e → (engine_run tasks).result = Except.error e) ∧
    (engine_run tasks).cancelled = (waitFirstException tasks).2 ∧
    (waitFirstException tasks).1 ++ (engine_run tasks).cancelled = tasks := by
  refine ⟨?_, ?_, rfl, waitFirstException_append tasks⟩
  · rw [engine_result_eq]
    rcases h : firstError tasks with _ | e
    · constructor
      · intro _
        exact (firstError_eq_none tasks).mp h
      · intro _
        rfl
    · constructor
      · intro hc
        exact absurd hc (by simp)
      · intro hall
        have h2 := (firstError_eq_none tasks).mpr hall
        rw [h] at h2
        cases h2
  · intro e he
    rw [engine_result_eq, he]

/-- Claim C6: for a stage at position `i` with name `p`, the configuration the
constructor receives is resolved as: the chain config's entry under the string
key `str(i)` if present, otherwise the entry under the name `p` if present,
otherwise nothing — and after the base constructor the plugin always sees a
mapping (the falsy cases, including an absent or empty chain config and a
missing entry, become the empty mapping, never a missing value). -/
theorem stage_config_resolution (m : List (String × CVal)) (i : Nat) (p : String) :
    (∀ v, lookupA m (toString i) = some v →
        resolve_stage_config (some m) i p = some v ∧
        plugin_config (resolve_stage_config (some m) i p)
          = (if pyTruthy v then v else CVal.map [])) ∧
    (lookupA m (toString i) = none → ∀ v, lookupA m p = some v →
        resolve_stage_config (some m) i p = some v) ∧
    (lookupA m (toString i) = none → lookupA m p = none →
        plugin_config (resolve_stage_config (some m) i p) = CVal.map []) ∧
    plugin_config (resolve_stage_config none i p) = CVal.map [] := by
  refine ⟨?_, ?_, ?_, rfl⟩
  · intro v hv
    have hm : m.isEmpty = false := by
      cases m
      · cases hv
      · rfl
    constructor
    · simp [resolve_stage_config, hm, hv]
    · simp [resolve_stage_config, hm, hv, plugin_config]
  · intro hnone v hv
    have hm : m.isEmpty = false := by
      cases m
      · cases hv
      · rfl
    simp [resolve_stage_config, hm, hnone, hv]
  · intro h1 h2
    by_cases hm : m.isEmpty = true
    · have : m = [] := by
        cases m
        · rfl
        · cases hm
      subst this
      rfl
    · simp [resolve_stage_config, hm, h1, h2, plugin_config]

/-- Witness for claim C6 at a concrete input: with chain config containing a
positional entry under key "0", a stage at position 0 named "pass" receives
that entry. -/
theorem stage_config_resolution_witness :
    resolve_stage_config (some [("0", CVal.int 5)]) 0 "pass" = some (CVal.int 5) := by
  have h := stage_config_resolution [("0", CVal.int 5)] 0 "pass"
  exact (h.1 (CVal.int 5) (by rfl)).1

/-- Claim C3 (modelled from the spec, section 4.4; the entry point performing
end-slot resolution is not part of src/ — src/qrexec-proxy.py uses the
built-in endpoints unconditionally, and src/plugins/default.py holds the
default Source/Destination classes such a driver loads): for every chain, the
first listed stage is tried as a Source role — if it resolves it is consumed
as the Source slot and removed from the filter list, otherwise the built-in
default Source is used and the stage stays a filter; symmetrically the last
remaining listed stage is tried as the Destination slot. -/
theorem end_slot_resolution (reg : String → Role → Bool) (p : String)
    (ps : List String) :
    (reg p Role.source = true →
        (resolve_end_slots reg (p :: ps)).sourceSlot = some p ∧
        (∀ q, ps.getLast? = some q →
          (reg q Role.dest = true →
              (resolve_end_slots reg (p :: ps)).destSlot = some q ∧
              (resolve_end_slots reg (p :: ps)).filters = ps.dropLast) ∧
          (reg q Role.dest = false →
              (resolve_end_slots reg (p :: ps)).destSlot = none ∧
              (resolve_end_slots reg (p :: ps)).filters = ps))) ∧
    (reg p Role.source = false →
        (resolve_end_slots reg (p :: ps)).sourceSlot = none ∧
        (∀ q, (p :: ps).getLast? = some q →
          (reg q Role.dest = true →
              (resolve_end_slots reg (p :: ps)).destSlot = some q ∧
              (resolve_end_slots reg (p :: ps)).filters = (p :: ps).dropLast) ∧
          (reg q Role.dest = false →
              (resolve_end_slots reg (p :: ps)).destSlot = none ∧
              (resolve_end_slots reg (p :: ps)).filters = p :: ps))) := by
  constructor
  · intro hs
    constructor
    · simp [resolve_end_slots, hs]
    · intro q hq
      constructor
      · intro hd
        constructor <;> simp [resolve_end_slots, hs, hq, hd]
      · intro hd
        constructor <;> simp [resolve_end_slots, hs, hq, hd]
  · intro hs
    constructor
    · simp [resolve_end_slots, hs]
    · intro q hq
      constructor
      · intro hd
        constructor <;> simp [resolve_end_slots, hs, hq, hd]
      · intro hd
        constructor <;> simp [resolve_end_slots, hs, hq, hd]

/-- Witness for claim C3 at a concrete input: a registry resolving only the
name "default" (in any role), on the chain ["default", "pass", "default"],
consumes the first stage as Source slot and the last as Destination slot,
leaving ["pass"] as filters. -/
theorem end_slot_resolution_witness :
    (resolve_end_slots (fun n _ => n == "default")
        ["default", "pass", "default"]).sourceSlot = some "default" ∧
    (resolve_end_slots (fun n _ => n == "default")
        ["default", "pass", "default"]).destSlot = some "default" ∧
    (resolve_end_slots (fun n _ => n == "default")
        ["default", "pass", "default"]).filters = ["pass"] := by
  have h := end_slot_resolution (fun n _ => n == "default") "default" ["pass", "default"]
  obtain ⟨hs, hq⟩ := h.1 (by rfl)
  obtain ⟨hd, hf⟩ := (hq "default" (by rfl)).1 (by rfl)
  exact ⟨hs, hd, hf.trans (by rfl)⟩

theorem countP_le_countP (l : List Int) (p q : Int → Bool)
    (h : ∀ a ∈ l, p a = true → q a = true) : l.countP p ≤ l.countP q := by
  induction l with
  | nil => simp
  | cons a t ih =>
      have ha := h a (by simp)
      have ht : ∀ b ∈ t, p b = true → q b = true := fun b hb => h b (by simp [hb])
      rw [List.countP_cons, List.countP_cons]
      by_cases hp : p a = true
      · simp [hp, ha hp]
        exact ih ht
      · simp only [Bool.not_eq_true] at hp
        simp [hp]
        have := ih ht
        split <;> omega

theorem filter_window_collapse (A : List Int) (T t0 t : Int) (ht : t0 ≤ t)
    (hA : ∀ u ∈ A, u ≤ t0) :
    (A.filter (fun u => t0 - u < T)).filter (fun u => t - u < T)
      = A.filter (fun u => t - u < T) := by
  induction A with
  | nil => rfl
  | cons a A ih =>
      have ha := hA a (by simp)
      have hrest : ∀ u ∈ A, u ≤ t0 := fun u hu => hA u (by simp [hu])
      by_cases h1 : t0 - a < T
      · by_cases h2 : t - a < T <;>
          simp [List.filter_cons, h1, h2, ih hrest]
      · have h2 : ¬ t - a < T := by omega
        simp [List.filter_cons, h1, h2, ih hrest]

theorem count_run_invariant (K : Nat) (T : Int) (hT : 0 < T) :
    ∀ ts : List Int, ∀ A : List Int, ∀ t0 : Int,
      (∀ u ∈ A, u ≤ t0) →
      (∀ t ∈ ts, t0 ≤ t) →
      List.Pairwise (· ≤ ·) ts →
      (∀ w : Int, (A.countP (fun u => decide (w < u) && decide (u ≤ w + T))) ≤ K) →
      (∀ w : Int,
        ((A ++ (count_run K T (A.filter (fun u => t0 - u < T)) ts).2).countP
          (fun u => decide (w < u) && decide (u ≤ w + T))) ≤ K) := by
  intro ts
  induction ts with
  | nil =>
      intro A t0 hA hts hsort hbound w
      simpa [count_run] using hbound w
  | cons t ts ih =>
      intro A t0 hA hts hsort hbound w
      have ht0t : t0 ≤ t := hts t (by simp)
      have hAt : ∀ u ∈ A, u ≤ t := fun u hu => le_trans (hA u hu) ht0t
      have hts2 : ∀ x ∈ ts, t ≤ x := (List.pairwise_cons.mp hsort).1
      have hsort2 : List.Pairwise (· ≤ ·) ts := (List.pairwise_cons.mp hsort).2
      have hcollapse := filter_window_collapse A T t0 t ht0t hA
      rw [count_run, update_counters]
      simp only [hcollapse]
      by_cases hfull : K ≤ (A.filter (fun u => t - u < T)).length
      · rw [if_pos hfull]
        have := ih A t hAt hts2 hsort2 hbound w
        simpa using this
      · rw [if_neg hfull]
        have hfileeq : A.filter (fun u => t - u < T) ++ [t]
            = (A ++ [t]).filter (fun u => t - u < T) := by
          rw [List.filter_append]
          simp [hT]
        have hAt2 : ∀ u ∈ A ++ [t], u ≤ t := by
          intro u hu
          rcases List.mem_append.mp hu with h | h
          · exact hAt u h
          · simp at h
            omega
        have hbound2 : ∀ w2 : Int,
            ((A ++ [t]).countP (fun u => decide (w2 < u) && decide (u ≤ w2 + T))) ≤ K := by
          intro w2
          rw [List.countP_append]
          by_cases hwin : w2 < t ∧ t ≤ w2 + T
          · have hsub : A.countP (fun u => decide (w2 < u) && decide (u ≤ w2 + T))
                ≤ A.countP (fun u => decide (t - u < T)) := by
              apply countP_le_countP
              intro a ha hp
              simp only [Bool.and_eq_true, decide_eq_true_eq] at hp
              have := hAt a ha
              simp only [decide_eq_true_eq]
              omega
            have hlen : A.countP (fun u => decide (t - u < T)) =
                (A.filter (fun u => decide (t - u < T))).length :=
              List.countP_eq_length_filter _ _
            have ht1 : List.countP (fun u => decide (w2 < u) && decide (u ≤ w2 + T)) [t]
                = 1 := by
              simp [List.countP_cons, hwin.1, hwin.2]
            rw [ht1]
            rw [hlen] at hsub
            omega
          · have ht0 : List.countP (fun u => decide (w2 < u) && decide (u ≤ w2 + T)) [t]
                = 0 := by
              simp only [List.countP_cons, List.countP_nil, Nat.zero_add]
              by_cases hc1 : w2 < t
              · have hc2 : ¬ t ≤ w2 + T := fun hh => hwin ⟨hc1, hh⟩
                simp [hc1, hc2]
              · simp [hc1]
            rw [ht0]
            have := hbound w2
            omega
        have := ih (A ++ [t]) t hAt2 hts2 hsort2 hbound2 w
        rw [← hfileeq] at this
        simpa [List.append_assoc] using this

/-- Claim C5: the count (rate-quota) filter with `limit = K > 0` and
`limit_interval = T > 0`, run under the cross-process lock on each session
start: it keeps exactly the counter-file timestamps strictly younger than `T`,
raises the `AbortException` (before any stream splicing) precisely when at
least `K` entries were kept, appends the current timestamp otherwise, and in
either case the file is rewritten with exactly the kept entries (plus the new
one on admission).  Consequently, over any nondecreasing sequence of session
times starting from an empty counter file, at most `K` sessions are admitted
within any window of length `T`, and a session arriving when `K` in-window
entries exist is refused with the admission error. -/
theorem count_limit_spec (K : Nat) (T : Int) (hK : 0 < K) (hT : 0 < T)
    (ts : List Int) (hsort : List.Pairwise (· ≤ ·) ts) :
    (∀ (now : Int) (file : List Int),
        update_counters K T now file
          = (if K ≤ (file.filter (fun o => now - o < T)).length
             then (Except.error
                     "AbortException: the connection limit was reached for the chain",
                   file.filter (fun o => now - o < T))
             else (Except.ok (), file.filter (fun o => now - o < T) ++ [now]))) ∧
    (∀ w : Int,
        ((count_run K T [] ts).2.countP
          (fun u => decide (w < u) && decide (u ≤ w + T))) ≤ K) ∧
    (∀ (now : Int) (file : List Int),
        K ≤ (file.filter (fun o => now - o < T)).length →
        (update_counters K T now file).1
          = Except.error
              "AbortException: the connection limit was reached for the chain") := by
  refine ⟨fun now file => rfl, ?_, ?_⟩
  · intro w
    cases ts with
    | nil => simp [count_run]
    | cons t ts2 =>
        have hsort2 := hsort
        have h := count_run_invariant K T hT (t :: ts2) [] t
          (by intro u hu; cases hu)
          (by
            intro x hx
            rcases List.mem_cons.mp hx with h | h
            · omega
            · exact (List.pairwise_cons.mp hsort).1 x h)
          hsort
          (by intro w2; simp)
          w
        simpa using h
  · intro now file hfull
    simp [update_counters, hfull]

/-- Witness for claim C5 at a concrete input: with limit 1 and interval 10,
of two sessions at times 0 and 1 only the first is admitted, and the window
bound holds at a concrete window. -/
theorem count_limit_spec_witness :
    (count_run 1 10 [] [0, 1]).2 = [0] ∧
    ((count_run 1 10 [] [0, 1]).2.countP
      (fun u => decide ((-5 : Int) < u) && decide (u ≤ -5 + 10))) ≤ 1 := by
  have h := count_limit_spec 1 10 (by decide) (by decide) [0, 1]
    (by simp [List.pairwise_cons])
  exact ⟨by decide, h.2.1 (-5)⟩

/-- Counterexample for claim C7 as stated: with `delay_read` bound 500 ms the
streamline loop performs its first read with no preceding delay event
(`if i > 0` skips the sleep on the first iteration), so it is not the case
that every read is preceded by a pre-read delay. -/
theorem streamline_first_read_no_delay :
    ¬ (∀ (i : Nat) (c : List Nat),
        (connect_streamline 4 500 0 [7] [[1, 1, 1, 1, 1]] [3]).get? i
            = some (SEvent.readEv c) →
        ∃ j d, i = j + 1 ∧
          (connect_streamline 4 500 0 [7] [[1, 1, 1, 1, 1]] [3]).get? j
            = some (SEvent.sleepRead d)) := by
  have htr : connect_streamline 4 500 0 [7] [[1, 1, 1, 1, 1]] [3]
      = [SEvent.readEv [7], SEvent.writeEv [7]] := by
    have h4 : read_full_noblock [7] (4 : Int) [1, 1, 1, 1, 1] = [7] := by
      have := read_full_noblock_take [7] [1, 1, 1, 1, 1] 4
      simpa using this
    rw [connect_streamline, connect_streamline_go]
    simp [h4, streamline_sleep]
  intro h
  obtain ⟨j, d, hj, _⟩ := h 0 [7] (by rw [htr]; rfl)
  omega

theorem delayedReads_nil (a : Bool) (p : Option SEvent) : delayedReads a p [] = true := rfl

theorem delayedReads_sleepRead (a : Bool) (p : Option SEvent) (d : Nat) (rest : List SEvent) :
    delayedReads a p (SEvent.sleepRead d :: rest)
      = delayedReads a (some (SEvent.sleepRead d)) rest := rfl

theorem delayedReads_sleepWrite (a : Bool) (p : Option SEvent) (d : Nat) (rest : List SEvent) :
    delayedReads a p (SEvent.sleepWrite d :: rest)
      = delayedReads a (some (SEvent.sleepWrite d)) rest := rfl

theorem delayedReads_writeEv (a : Bool) (p : Option SEvent) (c : List Nat) (rest : List SEvent) :
    delayedReads a p (SEvent.writeEv c :: rest)
      = delayedReads a (some (SEvent.writeEv c)) rest := rfl

theorem delayedReads_read_afterSleep (a : Bool) (d : Nat) (c : List Nat) (rest : List SEvent) :
    delayedReads a (some (SEvent.sleepRead d)) (SEvent.readEv c :: rest)
      = delayedReads false (some (SEvent.readEv c)) rest := rfl

theorem delayedReads_read_true (p : Option SEvent) (c : List Nat) (rest : List SEvent) :
    delayedReads true p (SEvent.readEv c :: rest)
      = delayedReads false (some (SEvent.readEv c)) rest := by
  cases p with
  | none => rfl
  | some e => cases e <;> rfl


theorem delayedReads_go (bufSize dRead dWrite : Nat) (hr : 0 < dRead) :
    ∀ n (stream : List Nat), stream.length = n →
      ∀ (kss : List (List Nat)) (rs : List Nat) (i : Nat) (prev : Option SEvent)
        (allowBare : Bool), (i = 0 → allowBare = true) →
      delayedReads allowBare prev
        (connect_streamline_go bufSize dRead dWrite i stream kss rs) = true := by
  intro n
  induction n using Nat.strong_induction_on with
  | _ n ih =>
    intro stream hlen kss rs i prev allowBare hba
    rw [connect_streamline_go]
    simp only [read_full_noblock_take]
    have hrne : ¬ dRead = 0 := by omega
    by_cases he : (stream.take bufSize).isEmpty = true
    · rw [dif_pos he]
      rcases Nat.eq_zero_or_pos i with hi | hi
      · rw [hba hi, if_pos hi]
        simp only [List.nil_append]
        rw [delayedReads_read_true]
        rfl
      · have hi0 : i ≠ 0 := by omega
        rw [if_neg hi0]
        simp only [streamline_sleep, if_neg hrne, List.cons_append, List.nil_append]
        rw [delayedReads_sleepRead, delayedReads_read_afterSleep]
        rfl
    · rw [dif_neg he]
      have hstream : stream ≠ [] := by
        intro h
        simp [h] at he
      have hlen2 : (stream.drop (stream.take bufSize).length).length < n := by
        simp only [List.length_drop, List.length_take]
        have h1 : 0 < stream.length := List.length_pos.mpr hstream
        have h2 : bufSize ≠ 0 := by
          intro h
          simp [h] at he
        omega
      by_cases hlt : (stream.take bufSize).length < bufSize
      · rw [if_pos hlt]
        rcases Nat.eq_zero_or_pos i with hi | hi
        · rw [hba hi, if_pos hi]
          by_cases hw0 : dWrite = 0 <;>
            simp [streamline_sleep, hw0, delayedReads_read_true,
              delayedReads_sleepWrite, delayedReads_writeEv, delayedReads_nil]
        · have hi0 : i ≠ 0 := by omega
          rw [if_neg hi0]
          by_cases hw0 : dWrite = 0 <;>
            simp [streamline_sleep, hw0, hrne, delayedReads_sleepRead,
              delayedReads_read_afterSleep, delayedReads_sleepWrite,
              delayedReads_writeEv, delayedReads_nil]
      · rw [if_neg hlt]
        rcases Nat.eq_zero_or_pos i with hi | hi
        · rw [hba hi, if_pos hi]
          by_cases hw0 : dWrite = 0
          · simp only [streamline_sleep, if_pos hw0, List.cons_append, List.nil_append,
              List.append_assoc, delayedReads_read_true, delayedReads_writeEv]
            exact ih _ hlen2 _ rfl _ _ _ _ _ (fun h => absurd h (Nat.succ_ne_zero i))
          · simp only [streamline_sleep, if_neg hw0, List.cons_append, List.nil_append,
              List.append_assoc, delayedReads_read_true, delayedReads_sleepWrite,
              delayedReads_writeEv]
            exact ih _ hlen2 _ rfl _ _ _ _ _ (fun h => absurd h (Nat.succ_ne_zero i))
        · have hi0 : i ≠ 0 := by omega
          rw [if_neg hi0]
          by_cases hw0 : dWrite = 0
          · simp only [streamline_sleep, if_pos hw0, if_neg hrne, List.cons_append,
              List.nil_append, List.append_assoc, delayedReads_sleepRead,
              delayedReads_read_afterSleep, delayedReads_writeEv]
            exact ih _ hlen2 _ rfl _ _ _ _ _ (fun h => absurd h (Nat.succ_ne_zero i))
          · simp only [streamline_sleep, if_neg hw0, if_neg hrne, List.cons_append,
              List.nil_append, List.append_assoc, delayedReads_sleepRead,
              delayedReads_read_afterSleep, delayedReads_sleepWrite,
              delayedReads_writeEv]
            exact ih _ hlen2 _ rfl _ _ _ _ _ (fun h => absurd h (Nat.succ_ne_zero i))

theorem delayedWrites_nil (p : Option SEvent) : delayedWrites p [] = true := rfl

theorem delayedWrites_sleepRead (p : Option SEvent) (d : Nat) (rest : List SEvent) :
    delayedWrites p (SEvent.sleepRead d :: rest)
      = delayedWrites (some (SEvent.sleepRead d)) rest := rfl

theorem delayedWrites_sleepWrite (p : Option SEvent) (d : Nat) (rest : List SEvent) :
    delayedWrites p (SEvent.sleepWrite d :: rest)
      = delayedWrites (some (SEvent.sleepWrite d)) rest := rfl

theorem delayedWrites_readEv (p : Option SEvent) (c : List Nat) (rest : List SEvent) :
    delayedWrites p (SEvent.readEv c :: rest)
      = delayedWrites (some (SEvent.readEv c)) rest := rfl

theorem delayedWrites_write_afterSleep (d : Nat) (c : List Nat) (rest : List SEvent) :
    delayedWrites (some (SEvent.sleepWrite d)) (SEvent.writeEv c :: rest)
      = delayedWrites (some (SEvent.writeEv c)) rest := rfl

theorem delayedWrites_go (bufSize dRead dWrite : Nat) (hr : 0 < dRead) (hw : 0 < dWrite) :
    ∀ n (stream : List Nat), stream.length = n →
      ∀ (kss : List (List Nat)) (rs : List Nat) (i : Nat) (prev : Option SEvent),
      delayedWrites prev
        (connect_streamline_go bufSize dRead dWrite i stream kss rs) = true := by
  intro n
  induction n using Nat.strong_induction_on with
  | _ n ih =>
    intro stream hlen kss rs i prev
    rw [connect_streamline_go]
    simp only [read_full_noblock_take]
    have hrne : ¬ dRead = 0 := by omega
    have hwne : ¬ dWrite = 0 := by omega
    by_cases he : (stream.take bufSize).isEmpty = true
    · rw [dif_pos he]
      rcases Nat.eq_zero_or_pos i with hi | hi
      · rw [if_pos hi]
        simp only [List.nil_append, delayedWrites_readEv]
        rfl
      · rw [if_neg (by omega : ¬ i = 0)]
        simp only [streamline_sleep, if_neg hrne, List.cons_append, List.nil_append,
          delayedWrites_sleepRead, delayedWrites_readEv]
        rfl
    · rw [dif_neg he]
      have hstream : stream ≠ [] := by
        intro h
        simp [h] at he
      have hlen2 : (stream.drop (stream.take bufSize).length).length < n := by
        simp only [List.length_drop, List.length_take]
        have h1 : 0 < stream.length := List.length_pos.mpr hstream
        have h2 : bufSize ≠ 0 := by
          intro h
          simp [h] at he
        omega
      by_cases hlt : (stream.take bufSize).length < bufSize
      · rw [if_pos hlt]
        rcases Nat.eq_zero_or_pos i with hi | hi
        · rw [if_pos hi]
          simp only [streamline_sleep, if_neg hwne, List.cons_append, List.nil_append,
            delayedWrites_readEv, delayedWrites_sleepWrite, delayedWrites_write_afterSleep]
          rfl
        · rw [if_neg (by omega : ¬ i = 0)]
          simp only [streamline_sleep, if_neg hrne, if_neg hwne, List.cons_append,
            List.nil_append, delayedWrites_sleepRead, delayedWrites_readEv,
            delayedWrites_sleepWrite, delayedWrites_write_afterSleep]
          rfl
      · rw [if_neg hlt]
        rcases Nat.eq_zero_or_pos i with hi | hi
        · rw [if_pos hi]
          simp only [streamline_sleep, if_neg hwne, List.cons_append, List.nil_append,
            List.append_assoc, delayedWrites_readEv, delayedWrites_sleepWrite,
            delayedWrites_write_afterSleep]
          exact ih _ hlen2 _ rfl _ _ _ _
        · rw [if_neg (by omega : ¬ i = 0)]
          simp only [streamline_sleep, if_neg hrne, if_neg hwne, List.cons_append,
            List.nil_append, List.append_assoc, delayedWrites_sleepRead,
            delayedWrites_readEv, delayedWrites_sleepWrite,
            delayedWrites_write_afterSleep]
          exact ih _ hlen2 _ rfl _ _ _ _

theorem delaysWithin_nil (dR dW : Nat) : delaysWithin dR dW [] = true := rfl

theorem delaysWithin_sleepRead (dR dW d : Nat) (rest : List SEvent) :
    delaysWithin dR dW (SEvent.sleepRead d :: rest)
      = (decide (d < dR) && delaysWithin dR dW rest) := rfl

theorem delaysWithin_sleepWrite (dR dW d : Nat) (rest : List SEvent) :
    delaysWithin dR dW (SEvent.sleepWrite d :: rest)
      = (decide (d < dW) && delaysWithin dR dW rest) := rfl

theorem delaysWithin_readEv (dR dW : Nat) (c : List Nat) (rest : List SEvent) :
    delaysWithin dR dW (SEvent.readEv c :: rest) = delaysWithin dR dW rest := rfl

theorem delaysWithin_writeEv (dR dW : Nat) (c : List Nat) (rest : List SEvent) :
    delaysWithin dR dW (SEvent.writeEv c :: rest) = delaysWithin dR dW rest := rfl

theorem delaysWithin_go (bufSize dRead dWrite : Nat) (hr : 0 < dRead) (hw : 0 < dWrite) :
    ∀ n (stream : List Nat), stream.length = n →
      ∀ (kss : List (List Nat)) (rs : List Nat) (i : Nat),
      delaysWithin dRead dWrite
        (connect_streamline_go bufSize dRead dWrite i stream kss rs) = true := by
  intro n
  induction n using Nat.strong_induction_on with
  | _ n ih =>
    intro stream hlen kss rs i
    rw [connect_streamline_go]
    simp only [read_full_noblock_take]
    have hrne : ¬ dRead = 0 := by omega
    have hwne : ¬ dWrite = 0 := by omega
    have hmr : ∀ r : Nat, decide (r % dRead < dRead) = true := by
      intro r
      simp [Nat.mod_lt _ hr]
    have hmw : ∀ r : Nat, decide (r % dWrite < dWrite) = true := by
      intro r
      simp [Nat.mod_lt _ hw]
    by_cases he : (stream.take bufSize).isEmpty = true
    · rw [dif_pos he]
      rcases Nat.eq_zero_or_pos i with hi | hi
      · rw [if_pos hi]
        simp only [List.nil_append, delaysWithin_readEv]
        rfl
      · rw [if_neg (by omega : ¬ i = 0)]
        simp only [streamline_sleep, if_neg hrne, List.cons_append, List.nil_append,
          delaysWithin_sleepRead, delaysWithin_readEv, hmr, Bool.true_and]
        rfl
    · rw [dif_neg he]
      have hstream : stream ≠ [] := by
        intro h
        simp [h] at he
      have hlen2 : (stream.drop (stream.take bufSize).length).length < n := by
        simp only [List.length_drop, List.length_take]
        have h1 : 0 < stream.length := List.length_pos.mpr hstream
        have h2 : bufSize ≠ 0 := by
          intro h
          simp [h] at he
        omega
      by_cases hlt : (stream.take bufSize).length < bufSize
      · rw [if_pos hlt]
        rcases Nat.eq_zero_or_pos i with hi | hi
        · rw [if_pos hi]
          simp only [streamline_sleep, if_neg hwne, List.cons_append, List.nil_append,
            delaysWithin_readEv, delaysWithin_sleepWrite, delaysWithin_writeEv, hmw,
            Bool.true_and]
          rfl
        · rw [if_neg (by omega : ¬ i = 0)]
          simp only [streamline_sleep, if_neg hrne, if_neg hwne, List.cons_append,
            List.nil_append, delaysWithin_sleepRead, delaysWithin_readEv,
            delaysWithin_sleepWrite, delaysWithin_writeEv, hmr, hmw, Bool.true_and]
          rfl
      · rw [if_neg hlt]
        rcases Nat.eq_zero_or_pos i with hi | hi
        · rw [if_pos hi]
          simp only [streamline_sleep, if_neg hwne, List.cons_append, List.nil_append,
            List.append_assoc, delaysWithin_readEv, delaysWithin_sleepWrite,
            delaysWithin_writeEv, hmw, Bool.true_and]
          exact ih _ hlen2 _ rfl _ _ _
        · rw [if_neg (by omega : ¬ i = 0)]
          simp only [streamline_sleep, if_neg hrne, if_neg hwne, List.cons_append,
            List.nil_append, List.append_assoc, delaysWithin_sleepRead,
            delaysWithin_readEv, delaysWithin_sleepWrite, delaysWithin_writeEv,
            hmr, hmw, Bool.true_and]
          exact ih _ hlen2 _ rfl _ _ _

theorem traceWrites_append (xs ys : List SEvent) :
    traceWrites (xs ++ ys) = traceWrites xs ++ traceWrites ys := by
  induction xs with
  | nil => rfl
  | cons x t ih => cases x <;> simp [traceWrites, ih]

theorem traceWrites_go (bufSize dRead dWrite : Nat) (hr : 0 < dRead) (hw : 0 < dWrite)
    (hb : 0 < bufSize) :
    ∀ n (stream : List Nat), stream.length = n →
      ∀ (kss : List (List Nat)) (rs : List Nat) (i : Nat),
      (traceWrites (connect_streamline_go bufSize dRead dWrite i stream kss rs)).flatten
          = stream ∧
      (∀ c ∈ (traceWrites
          (connect_streamline_go bufSize dRead dWrite i stream kss rs)).dropLast,
        c.length = bufSize) := by
  intro n
  induction n using Nat.strong_induction_on with
  | _ n ih =>
    intro stream hlen kss rs i
    rw [connect_streamline_go]
    simp only [read_full_noblock_take]
    have hrne : ¬ dRead = 0 := by omega
    have hwne : ¬ dWrite = 0 := by omega
    by_cases he : (stream.take bufSize).isEmpty = true
    · rw [dif_pos he]
      have hstream0 : stream = [] := by
        cases stream with
        | nil => rfl
        | cons a t =>
            exfalso
            cases bufSize with
            | zero => omega
            | succ m => simp [List.take] at he
      rcases Nat.eq_zero_or_pos i with hi | hi
      · rw [if_pos hi]
        simp [traceWrites, traceWrites_append, hstream0]
      · rw [if_neg (by omega : ¬ i = 0)]
        simp [streamline_sleep, if_neg hrne, traceWrites, traceWrites_append, hstream0]
    · rw [dif_neg he]
      have hstream : stream ≠ [] := by
        intro h
        simp [h] at he
      by_cases hlt : (stream.take bufSize).length < bufSize
      · rw [if_pos hlt]
        have hshort : stream.take bufSize = stream := by
          apply List.take_of_length_le
          simp only [List.length_take] at hlt
          omega
        rcases Nat.eq_zero_or_pos i with hi | hi
        · rw [if_pos hi]
          simp [streamline_sleep, if_neg hwne, traceWrites, traceWrites_append, hshort]
        · rw [if_neg (by omega : ¬ i = 0)]
          simp [streamline_sleep, if_neg hrne, if_neg hwne, traceWrites,
            traceWrites_append, hshort]
      · rw [if_neg hlt]
        have hfull : (stream.take bufSize).length = bufSize := by
          simp only [List.length_take] at hlt ⊢
          omega
        have hlen2 : (stream.drop (stream.take bufSize).length).length < n := by
          simp only [List.length_drop]
          have h1 : 0 < stream.length := List.length_pos.mpr hstream
          omega
        have hihres := ih _ hlen2 (stream.drop (stream.take bufSize).length) rfl
        have hstep : ∀ (s1evs s2evs : List SEvent) (rec : List SEvent),
            traceWrites s1evs = [] → traceWrites s2evs = [] →
            traceWrites (s1evs ++ [SEvent.readEv (stream.take bufSize)] ++ s2evs ++
                [SEvent.writeEv (stream.take bufSize)] ++ rec)
              = stream.take bufSize :: traceWrites rec := by
          intro s1evs s2evs rec h1 h2
          simp [traceWrites_append, h1, h2, traceWrites]
        have hgen : ∀ (s1evs s2evs : List SEvent) (kss2 : List (List Nat))
            (rs2 : List Nat),
            traceWrites s1evs = [] → traceWrites s2evs = [] →
            (traceWrites (s1evs ++ [SEvent.readEv (stream.take bufSize)] ++ s2evs ++
                [SEvent.writeEv (stream.take bufSize)] ++
                connect_streamline_go bufSize dRead dWrite (i + 1)
                  (stream.drop (stream.take bufSize).length) kss2 rs2)).flatten
                = stream ∧
            (∀ c ∈ (traceWrites (s1evs ++ [SEvent.readEv (stream.take bufSize)] ++
                s2evs ++ [SEvent.writeEv (stream.take bufSize)] ++
                connect_streamline_go bufSize dRead dWrite (i + 1)
                  (stream.drop (stream.take bufSize).length) kss2 rs2)).dropLast,
              c.length = bufSize) := by
          intro s1evs s2evs kss2 rs2 h1 h2
          obtain ⟨hj, hd⟩ := hihres kss2 rs2 (i + 1)
          rw [hstep s1evs s2evs _ h1 h2]
          constructor
          · rw [List.flatten_cons, hj, hfull]
            exact List.take_append_drop _ _
          · intro c hc
            rcases htw : traceWrites (connect_streamline_go bufSize dRead dWrite (i + 1)
                (stream.drop (stream.take bufSize).length) kss2 rs2) with _ | ⟨w, ws⟩
            · rw [htw] at hc
              simp at hc
            · rw [htw] at hc hd
              simp only [List.dropLast_cons₂, List.mem_cons] at hc
              rcases hc with hc | hc
              · rw [hc]
                exact hfull
              · exact hd c hc
        rcases Nat.eq_zero_or_pos i with hi | hi
        · rw [if_pos hi]
          simp only [streamline_sleep, if_neg hwne]
          exact hgen [] [SEvent.sleepWrite (rs.headD 0 % dWrite)] kss.tail rs.tail
            rfl rfl
        · rw [if_neg (by omega : ¬ i = 0)]
          simp only [streamline_sleep, if_neg hrne, if_neg hwne]
          exact hgen [SEvent.sleepRead (rs.headD 0 % dRead)]
            [SEvent.sleepWrite (rs.tail.headD 0 % dWrite)] kss.tail rs.tail.tail
            rfl rfl

/-- Claim C7 (amended): for the streamline filter with positive configured
bounds `delay_read` and `delay_write` (in integer milliseconds) and a positive
`buf_size`: before every read except the first a uniformly random delay in
[0, `delay_read`) is inserted — the source skips the pre-read delay on the
first iteration (`if i > 0`) — and before every write a uniformly random delay
in [0, `delay_write`) is inserted; data is buffered until the fixed-size
window `buf_size` is full or EOF and only then emitted as a block: every
emitted block except possibly the last has exactly `buf_size` bytes and the
emitted blocks concatenate to exactly the input stream. -/
theorem streamline_spec (bufSize dRead dWrite : Nat) (stream : List Nat)
    (kss : List (List Nat)) (rs : List Nat)
    (hr : 0 < dRead) (hw : 0 < dWrite) (hb : 0 < bufSize) :
    delayedReads true none
        (connect_streamline bufSize dRead dWrite stream kss rs) = true ∧
    delayedWrites none (connect_streamline bufSize dRead dWrite stream kss rs) = true ∧
    delaysWithin dRead dWrite
        (connect_streamline bufSize dRead dWrite stream kss rs) = true ∧
    (traceWrites (connect_streamline bufSize dRead dWrite stream kss rs)).flatten
        = stream ∧
    (∀ c ∈ (traceWrites
        (connect_streamline bufSize dRead dWrite stream kss rs)).dropLast,
      c.length = bufSize) :=
  ⟨delayedReads_go bufSize dRead dWrite hr _ stream rfl kss rs 0 none true (fun _ => rfl),
   delayedWrites_go bufSize dRead dWrite hr hw _ stream rfl kss rs 0 none,
   delaysWithin_go bufSize dRead dWrite hr hw _ stream rfl kss rs 0,
   (traceWrites_go bufSize dRead dWrite hr hw hb _ stream rfl kss rs 0).1,
   (traceWrites_go bufSize dRead dWrite hr hw hb _ stream rfl kss rs 0).2⟩

/-- Witness for the amended claim C7 at a concrete input. -/
theorem streamline_spec_witness :
    delayedReads true none
        (connect_streamline 2 500 300 [7, 8, 9] [[9], [9]] [5, 4, 3]) = true ∧
    delayedWrites none (connect_streamline 2 500 300 [7, 8, 9] [[9], [9]] [5, 4, 3]) = true ∧
    delaysWithin 500 300
        (connect_streamline 2 500 300 [7, 8, 9] [[9], [9]] [5, 4, 3]) = true ∧
    (traceWrites (connect_streamline 2 500 300 [7, 8, 9] [[9], [9]] [5, 4, 3])).flatten
        = [7, 8, 9] ∧
    (∀ c ∈ (traceWrites
        (connect_streamline 2 500 300 [7, 8, 9] [[9], [9]] [5, 4, 3])).dropLast,
      c.length = 2) :=
  streamline_spec 2 500 300 [7, 8, 9] [[9], [9]] [5, 4, 3]
    (by decide) (by decide) (by decide)

/-- Witness for claim C2 at a concrete input: with completion order
[ok, error, ok], the engine re-raises the first error and cancels exactly the
still-pending task. -/
theorem engine_first_exception_witness :
    (engine_run [TaskResult.ok, TaskResult.err "boom", TaskResult.ok]).result
        = Except.error "boom" ∧
    (engine_run [TaskResult.ok, TaskResult.err "boom", TaskResult.ok]).cancelled
        = [TaskResult.ok] :=
  ⟨(engine_first_exception [TaskResult.ok, TaskResult.err "boom", TaskResult.ok]).2.1
      "boom" rfl,
   (engine_first_exception [TaskResult.ok, TaskResult.err "boom", TaskResult.ok]).2.2.1.trans
      (by decide)⟩
